import Mathlib

/-!
Shallow embedding of the uci-rs engine driver (src/lib.rs, src/error.rs).

Text travelling over the process streams is modelled as `List Char`:
Rust reads single bytes and pushes `buf[0] as char`, which is injective on
the byte range, so one event per byte/char is faithful.  Line-level
operations (the read loops of `bestmove`, `evaluation`,
`read_left_output`) consume a list of already-delimited lines; the
byte-level reader `read_line` is modelled separately with explicit fuel,
since the Rust loop has no structural termination measure.
-/

set_option autoImplicit false

namespace Uci

/-- The error enum of src/error.rs.  The io::Error payload is abstracted to
its message text; `Io` is the wrapper around I/O failures, `UnknownOption`
carries the rejected option name, `NotFound` is the parse-failure case. -/
inductive EngineError where
  | Io (msg : List Char)
  | UnknownOption (name : List Char)
  | NotFound
deriving DecidableEq

/-- Effects on the engine process visible from outside: bytes written to the
child's stdin, and thread::sleep pauses (milliseconds). -/
inductive Ev where
  | write (s : List Char)
  | sleepMs (n : Nat)
deriving DecidableEq

/-- Rust `c == ' '` used by `str::split(' ')`. -/
def isSp (c : Char) : Bool := c = ' '

/-- Rust `char::is_whitespace` restricted to the ASCII code points that occur
in UCI protocol lines (space, tab, LF, VT, FF, CR); the non-ASCII Unicode
White_Space code points are not modelled. -/
def isWsp (c : Char) : Bool :=
  c = ' ' || c = '\t' || c = '\n' || c = Char.ofNat 11 || c = Char.ofNat 12 || c = '\r'

/-- Rust `str::split` on a one-character pattern: every occurrence of a
separator character ends a segment, adjacent separators and leading/trailing
separators yield empty segments, and the empty string yields one empty
segment — exactly `"".split(p)` returning `[""]`. -/
def splitBy (p : Char → Bool) : List Char → List (List Char)
  | [] => [[]]
  | c :: rest =>
    if p c then [] :: splitBy p rest
    else
      match splitBy p rest with
      | [] => [[c]]
      | t :: ts => (c :: t) :: ts

/-- `s.split(' ')` from `Engine::evaluation` and `Engine::bestmove`. -/
def splitSp (s : List Char) : List (List Char) := splitBy isSp s

/-- Rust `str::trim`: drop whitespace from both ends. -/
def trimL (s : List Char) : List Char :=
  ((s.dropWhile (fun c => isWsp c)).reverse.dropWhile (fun c => isWsp c)).reverse

/-- Rust `str::starts_with` on a string pattern (prefix of the char sequence). -/
def startsWithL (p s : List Char) : Bool := p.isPrefixOf s

/-- `moves.join(" ")`. -/
def joinSp (ms : List (List Char)) : List Char := List.intercalate (' ' :: []) ms

/-- Digit run to a number, most significant first (used by `parseI32`). -/
def digitsVal (ds : List Char) : Nat :=
  ds.foldl (fun acc c => acc * 10 + (c.toNat - '0'.toNat)) 0

/-- Rust `str::parse::<i32>()`: an optional `+` or `-` sign, then one or more
ASCII digits and nothing else, with the value required to fit in i32;
anything else (empty digits, stray characters, overflow) is a parse error. -/
def parseI32 (s : List Char) : Option Int :=
  let signed : Bool × List Char :=
    match s with
    | '-' :: rest => (true, rest)
    | '+' :: rest => (false, rest)
    | rest => (false, rest)
  let ds := signed.2
  if ds = [] then none
  else if ds.all Char.isDigit then
    let v : Int := if signed.1 then -(digitsVal ds : Int) else (digitsVal ds : Int)
    if -(2 ^ 31) ≤ v ∧ v ≤ 2 ^ 31 - 1 then some v else none
  else none

/-- `parts.iter().enumerate().find(|(_i, v)| *v == &"cp")` from
`Engine::evaluation`: index of the first segment equal to `cp`. -/
def findCpIdx : List (List Char) → Option Nat
  | [] => none
  | t :: ts => if t = "cp".toList then some 0 else (findCpIdx ts).map (· + 1)

/-- One result of `child.stdout.read(&mut buf)` with a 1-byte buffer: either a
byte arrives, or the underlying read call returns an error.  The stream model
is a finite list of these events; once the list is exhausted the stream is at
end of file, where Rust's `read` returns `Ok(0)` and leaves the buffer
untouched. -/
inductive ReadEv where
  | ok (c : Char)
  | fail (msg : List Char)
deriving DecidableEq

/-- Loop body of `Engine::read_line` (src/lib.rs, lines 225 to 237), with
explicit fuel because the Rust loop has no termination measure.  `buf` is the
single-byte buffer (initialised to 0 by `vec![0]`), `acc` the string being
built.  A `fail` event is the `?` on `read` propagating `EngineError::Io`.
On end of file `read` succeeds reading 0 bytes, the buffer keeps its stale
value, and the code still pushes `buf[0] as char` — exactly as in the source,
which never inspects the byte count.  `none` means the fuel ran out before the
loop returned. -/
def read_line_go : Nat → List ReadEv → Char → List Char →
    Option (Except EngineError (List Char) × List ReadEv)
  | 0, _, _, _ => none
  | fuel + 1, evs, buf, acc =>
    match evs with
    | .fail m :: rest => some (.error (.Io m), rest)
    | .ok b :: rest =>
      if b = '\n' then some (.ok (acc ++ [b]), rest)
      else read_line_go fuel rest b (acc ++ [b])
    | [] =>
      if buf = '\n' then some (.ok (acc ++ [buf]), [])
      else read_line_go fuel [] buf (acc ++ [buf])

/-- `Engine::read_line`: run the loop from the initial state
(`s = String::new()`, `buf = vec![0]`). -/
def read_line (fuel : Nat) (evs : List ReadEv) :
    Option (Except EngineError (List Char) × List ReadEv) :=
  read_line_go fuel evs (Char.ofNat 0) []

/-- The read loop of `Engine::evaluation` (src/lib.rs, lines 142 to 151) at
line granularity: keep the most recent line starting with `info`, stop at the
first line starting with `bestmove` and return the retained line; `none`
means no such line arrived and the loop blocks forever. -/
def evaluation_retained (info : List Char) : List (List Char) → Option (List Char)
  | [] => none
  | s :: rest =>
    let info2 := if startsWithL "info".toList s then s else info
    if startsWithL "bestmove".toList s then some info2
    else evaluation_retained info2 rest

/-- The parsing tail of `Engine::evaluation` (src/lib.rs, lines 154 to 163):
split the retained line on single spaces, find the first segment equal to
`cp`, and parse the following segment as an i32.  `none` models the panic of
the unchecked index `parts[cp_index]` when the first `cp` is the final
segment; `some (.error .NotFound)` is `Err(EngineError::NotFound)`. -/
def evaluation_parse (info : List Char) : Option (Except EngineError Int) :=
  let parts := splitSp info
  match findCpIdx parts with
  | none => some (.error .NotFound)
  | some i =>
    match parts.get? (i + 1) with
    | none => none
    | some tok =>
      match parseI32 tok with
      | none => some (.error .NotFound)
      | some n => some (.ok n)

/-- Outcome of a public call whose read loop may fail to terminate. -/
inductive EvalResult where
  | blocked
  | panicked
  | err (e : EngineError)
  | score (n : Int)
deriving DecidableEq

/-- `Engine::evaluation` over a list of reply lines (after `do_move` wrote the
`go` command): run the retain loop from the initial `String::from("")`, then
parse the retained line. -/
def evaluation (lines : List (List Char)) : EvalResult :=
  match evaluation_retained [] lines with
  | none => .blocked
  | some info =>
    match evaluation_parse info with
    | none => .panicked
    | some (.error e) => .err e
    | some (.ok n) => .score n

/-- `Engine::do_move` (src/lib.rs, lines 118 to 127): the single line written
for a search, `go movetime <movetime>\n`, with ` depth <depth>` inserted when
the depth option is set. -/
def do_move (movetime : Nat) (depth : Option Nat) : List Char :=
  match depth with
  | some d =>
    "go movetime ".toList ++ (toString movetime).toList ++
      " depth ".toList ++ (toString d).toList ++ "\n".toList
  | none => "go movetime ".toList ++ (toString movetime).toList ++ "\n".toList

/-- Result of the read loop of `Engine::bestmove`. -/
inductive BestmoveResult where
  | blocked
  | panicked
  | move (m : List Char)
deriving DecidableEq

/-- The read loop of `Engine::bestmove` (src/lib.rs, lines 132 to 137): skip
lines until one starts with the string `bestmove`, then return
`s.split(" ")[1].trim()`.  `panicked` models the unchecked index when the
line has no space; `blocked` means no `bestmove` line ever arrives. -/
def bestmove_loop : List (List Char) → BestmoveResult
  | [] => .blocked
  | s :: rest =>
    if startsWithL "bestmove".toList s then
      match (splitSp s).get? 1 with
      | none => .panicked
      | some f => .move (trimL f)
    else bestmove_loop rest

/-- `Engine::make_moves_from_position` (src/lib.rs, lines 112 to 116): the
line written is `position fen <fen> moves <space-joined moves>\n`. -/
def make_moves_from_position (fen : List Char) (moves : List (List Char)) : List Char :=
  "position fen ".toList ++ fen ++ " moves ".toList ++ joinSp moves ++ "\n".toList

/-- `Engine::set_position` (src/lib.rs, lines 105 to 108): delegates to
`make_moves_from_position` with an empty move vector. -/
def set_position (fen : List Char) : List Char :=
  make_moves_from_position fen []

/-- The read loop of `Engine::read_left_output` (src/lib.rs, lines 210 to
216): read lines, returning the accumulator joined with `\n` at the first
line whose trim is `readyok`, pushing the trimmed text of every other line;
`none` means no `readyok` line arrives and the loop blocks.  The second
component of the result is the unread remainder of the input. -/
def read_left_output_go (acc : List (List Char)) :
    List (List Char) → Option (List Char × List (List Char))
  | [] => none
  | l :: rest =>
    if trimL l = "readyok".toList then some (List.intercalate "\n".toList acc, rest)
    else read_left_output_go (acc ++ [trimL l]) rest

/-- `Engine::read_left_output`: write the literal `isready\n`, then run the
read loop with an empty accumulator.  The first component is the effect
trace. -/
def read_left_output (input : List (List Char)) :
    List Ev × Option (List Char × List (List Char)) :=
  (Ev.write "isready\n".toList :: [], read_left_output_go [] input)

/-- `Engine::command` (src/lib.rs, lines 200 to 204): write the trimmed
command followed by a newline, sleep 100 milliseconds, then synchronise via
`read_left_output` and return its accumulated text. -/
def command (cmd : List Char) (input : List (List Char)) :
    List Ev × Option (List Char × List (List Char)) :=
  let sync := read_left_output input
  (Ev.write (trimL cmd ++ "\n".toList) :: Ev.sleepMs 100 :: sync.1, sync.2)

/-- `Engine::set_option` (src/lib.rs, lines 179 to 189): write
`setoption name <name> value <value>\n`, synchronise, succeed when the
accumulated text trims to empty, and fail with `UnknownOption(name)`
otherwise. -/
def setOption (name value : List Char) (input : List (List Char)) :
    List Ev × Option (Except EngineError Unit × List (List Char)) :=
  let wr := Ev.write ("setoption name ".toList ++ name ++ " value ".toList ++
    value ++ "\n".toList)
  let sync := read_left_output input
  match sync.2 with
  | none => (wr :: sync.1, none)
  | some (msg, rest) =>
    (wr :: sync.1,
      some (if trimL msg = [] then .ok () else .error (.UnknownOption name), rest))

/-- Whether `Command::spawn` in `Engine::new` succeeded; on failure it
carries the operating system error text. -/
inductive SpawnOutcome where
  | ok
  | failure (oserr : List Char)
deriving DecidableEq

/-- Outcome of `Engine::new`: a constructed session (with the effect trace
and the unread remainder of the engine output), a returned error, a panic
(the `.expect` call aborts), or a read loop that never terminates. -/
inductive NewResult where
  | session (evs : List Ev) (remaining : List (List Char))
  | err (e : EngineError)
  | panicked (msg : List Char)
  | blocked
deriving DecidableEq

/-- Discriminator: did `Engine::new` return an error value? -/
def NewResult.isErr : NewResult → Bool
  | .err _ => true
  | _ => false

/-- `Engine::new` (src/lib.rs, lines 38 to 55) at line granularity: spawn
(panicking via `.expect("Unable to run engine")` when the spawn fails), read
and discard one line, then run `command("uci")`, which writes `uci\n`, sleeps
and drains lines up to `readyok` through the synchronisation loop.  Read
failures of the discarded banner line are abstracted away at this
granularity (they are modelled at byte level by `read_line_go`). -/
def Engine.new (spawn : SpawnOutcome) (input : List (List Char)) : NewResult :=
  match spawn with
  | .failure _ => .panicked "Unable to run engine".toList
  | .ok =>
    match input with
    | [] => .blocked
    | _banner :: rest =>
      match command "uci".toList rest with
      | (_, none) => .blocked
      | (evs, some (_out, remaining)) => .session evs remaining

/-- The whitespace-separated tokens of a line, as the specification phrases
it: the maximal nonempty runs of non-whitespace characters.  This is a
spec-side notion used to compare the spec wording with what the code
computes via `splitSp`; the source itself never computes it. -/
def wsTokens (s : List Char) : List (List Char) :=
  (splitBy isWsp s).filter (fun t => !t.isEmpty)

/- ### Helper lemmas -/

/-- Appending a singleton fixes the last element. -/
theorem getLast?_app_single {α : Type} (l : List α) (a : α) :
    (l ++ [a]).getLast? = some a := by
  induction l with
  | nil => rfl
  | cons x xs ih =>
    rw [List.cons_append]
    cases h : xs ++ [a] with
    | nil => exact absurd h (by simp)
    | cons y ys => rw [List.getLast?_cons_cons, ← h, ih]

/-- The synchronisation loop: with no `readyok` line in `xs` and `l` trimming
to `readyok`, the loop pushes the trimmed text of every line of `xs`, stops
at `l`, and leaves `rest` unread. -/
theorem read_left_output_go_append (xs : List (List Char)) (l : List Char)
    (rest : List (List Char)) (acc : List (List Char))
    (hxs : ∀ x ∈ xs, trimL x ≠ "readyok".toList)
    (hl : trimL l = "readyok".toList) :
    read_left_output_go acc (xs ++ l :: rest) =
      some (List.intercalate "\n".toList (acc ++ xs.map trimL), rest) := by
  induction xs generalizing acc with
  | nil => simp [read_left_output_go, hl]
  | cons x xs ih =>
    have hx : trimL x ≠ "readyok".toList := hxs x (by simp)
    have ih2 := ih (acc ++ [trimL x]) (fun y hy => hxs y (by simp [hy]))
    simp only [List.cons_append, read_left_output_go, if_neg hx]
    simpa using ih2

/-- A line starting with `bestmove` does not start with `info`. -/
theorem bestmove_not_info (s : List Char)
    (h : startsWithL "bestmove".toList s = true) :
    startsWithL "info".toList s = false := by
  cases s with
  | nil => exact absurd h (by decide)
  | cons c cs =>
    simp only [startsWithL, show "bestmove".toList = 'b' :: "estmove".toList from rfl,
      List.isPrefixOf, Bool.and_eq_true, beq_iff_eq] at h
    obtain ⟨hb, -⟩ := h
    cases hb
    show List.isPrefixOf "info".toList ('b' :: cs) = false
    rw [show "info".toList = 'i' :: "nfo".toList from rfl]
    simp [List.isPrefixOf, show ('i' == 'b') = false from by decide]

/-- The retain loop of `evaluation`: lines before the first `bestmove` line
fold into the retained line (each `info` line overwriting the previous one),
the loop stops at the `bestmove` line, and the lines after it are never
read. -/
theorem evaluation_retained_append (init : List Char) (xs : List (List Char))
    (bm : List Char) (ys : List (List Char))
    (hxs : ∀ x ∈ xs, startsWithL "bestmove".toList x = false)
    (hbm : startsWithL "bestmove".toList bm = true) :
    evaluation_retained init (xs ++ bm :: ys) =
      some (xs.foldl
        (fun acc l => if startsWithL "info".toList l then l else acc) init) := by
  induction xs generalizing init with
  | nil =>
    have h1 : startsWithL ('b' :: 'e' :: 's' :: 't' :: 'm' :: 'o' :: 'v' :: 'e' :: []) bm = true := hbm
    have h2 : startsWithL ('i' :: 'n' :: 'f' :: 'o' :: []) bm = false :=
      bestmove_not_info bm hbm
    simp [evaluation_retained, h1, h2]
  | cons x xs ih =>
    have hx : startsWithL "bestmove".toList x = false := hxs x (by simp)
    have ih2 := ih (if startsWithL "info".toList x then x else init)
      (fun y hy => hxs y (by simp [hy]))
    simp only [List.cons_append, evaluation_retained, hx, Bool.false_eq_true,
      if_false, List.foldl_cons]
    exact ih2

/-- `findCpIdx` returns `none` exactly on lists with no `cp` segment. -/
theorem findCpIdx_none_iff (l : List (List Char)) :
    findCpIdx l = none ↔ ∀ t ∈ l, t ≠ "cp".toList := by
  induction l with
  | nil => simp [findCpIdx]
  | cons t ts ih =>
    by_cases ht : t = "cp".toList
    · subst ht
      simp [findCpIdx]
    · have ht2 : ¬t = ('c' :: 'p' :: []) := by simpa using ht
      simp [findCpIdx, ht2, Option.map_eq_none', ih]

/-- `findCpIdx` finds the first `cp` segment: the segment at the returned
index is `cp` and no earlier segment is. -/
theorem findCpIdx_some_first (l : List (List Char)) (i : Nat)
    (h : findCpIdx l = some i) :
    l.get? i = some "cp".toList ∧ ∀ j, j < i → l.get? j ≠ some "cp".toList := by
  induction l generalizing i with
  | nil => exact absurd h (by simp [findCpIdx])
  | cons t ts ih =>
    by_cases ht : t = "cp".toList
    · subst ht
      have hi : some 0 = some i := by rw [← h]; simp [findCpIdx]
      obtain rfl : (0 : Nat) = i := Option.some.inj hi
      exact ⟨rfl, fun j hj => absurd hj (by omega)⟩
    · have ht2 : ¬t = ('c' :: 'p' :: []) := by simpa using ht
      have h1 : (findCpIdx ts).map (· + 1) = some i := by
        rw [← h]; simp [findCpIdx, ht2]
      obtain ⟨k, hk, hki⟩ := Option.map_eq_some'.mp h1
      obtain ⟨hget, hfirst⟩ := ih k hk
      subst hki
      refine ⟨by simpa using hget, ?_⟩
      intro j hj
      cases j with
      | zero =>
        simp only [List.get?_cons_zero]
        intro hcontra
        exact ht (Option.some.inj hcontra)
      | succ j2 =>
        simp only [List.get?_cons_succ]
        exact hfirst j2 (by omega)

/-- If the final segment of a list is not `cp`, any `cp` segment found by
`findCpIdx` has a successor segment: the found index plus one is in
bounds. -/
theorem findCpIdx_append_last (ts : List (List Char)) (t : List Char)
    (ht : t ≠ "cp".toList) (i : Nat) (h : findCpIdx (ts ++ [t]) = some i) :
    i + 1 < (ts ++ [t]).length := by
  induction ts generalizing i with
  | nil =>
    have ht2 : ¬t = ('c' :: 'p' :: []) := by simpa using ht
    simp [findCpIdx, ht2] at h
  | cons x ts ih =>
    by_cases hx : x = "cp".toList
    · have h0 : some 0 = some i := by
        rw [← h]; simp [List.cons_append, findCpIdx, hx]
      obtain rfl : (0 : Nat) = i := Option.some.inj h0
      simp only [List.cons_append, List.length_cons, List.length_append,
        List.length_singleton]
      omega
    · have hx2 : ¬x = ('c' :: 'p' :: []) := by simpa using hx
      have h1 : (findCpIdx (ts ++ [t])).map (· + 1) = some i := by
        rw [← h]; simp [List.cons_append, findCpIdx, hx2]
      obtain ⟨k, hk, hki⟩ := Option.map_eq_some'.mp h1
      have := ih k hk
      subst hki
      simp only [List.cons_append, List.length_cons]
      omega

/-- `splitBy` on a cons whose head is a separator character. -/
theorem splitBy_cons_pos (p : Char → Bool) (a : Char) (s : List Char)
    (hpa : p a = true) : splitBy p (a :: s) = [] :: splitBy p s := by
  simp [splitBy, hpa]

/-- `splitBy` on a cons whose head is not a separator character extends the
first segment of the tail's split. -/
theorem splitBy_cons_neg (p : Char → Bool) (a : Char) (s : List Char)
    (hpa : p a = false) (t : List Char) (ts : List (List Char))
    (hs : splitBy p s = t :: ts) :
    splitBy p (a :: s) = (a :: t) :: ts := by
  rw [show splitBy p (a :: s) =
      (if p a then [] :: splitBy p s
       else match splitBy p s with
       | [] => [(a :: [])]
       | t :: ts => (a :: t) :: ts) from rfl, hs, hpa]
  simp

/-- If the last character of a nonempty line is not a separator, the final
segment of `splitBy` is nonempty and ends with that character. -/
theorem splitBy_last_of_getLast (p : Char → Bool) (s : List Char) (c : Char)
    (hpc : p c = false) (hne : s ≠ []) (hlast : s.getLast? = some c) :
    ∃ ts t, splitBy p s = ts ++ [t] ∧ t ≠ [] ∧ t.getLast? = some c := by
  induction s with
  | nil => exact absurd rfl hne
  | cons a s ih =>
    cases s with
    | nil =>
      obtain rfl : a = c := by simpa using hlast
      exact ⟨[], [a], splitBy_cons_neg p a [] hpc [] [] rfl, by simp, by simp⟩
    | cons b s2 =>
      have hlast2 : (b :: s2).getLast? = some c := by
        rw [← hlast, List.getLast?_cons_cons]
      obtain ⟨ts, t, hsplit, htne, htlast⟩ := ih (by simp) hlast2
      by_cases hpa : p a = true
      · exact ⟨[] :: ts, t, by rw [splitBy_cons_pos p a _ hpa, hsplit]; rfl,
          htne, htlast⟩
      · have hpa2 : p a = false := by simpa using hpa
        cases ts with
        | nil =>
          refine ⟨[], a :: t, ?_, by simp, ?_⟩
          · rw [splitBy_cons_neg p a _ hpa2 t [] (by simpa using hsplit)]
            rfl
          · cases t with
            | nil => exact absurd rfl htne
            | cons u us => rw [List.getLast?_cons_cons]; exact htlast
        | cons t2 ts2 =>
          refine ⟨(a :: t2) :: ts2, t, ?_, htne, htlast⟩
          rw [splitBy_cons_neg p a _ hpa2 t2 (ts2 ++ [t]) (by simpa using hsplit)]
          rfl

/-- Every line returned successfully by the `read_line` loop is nonempty and
ends with the newline character: the loop only breaks when the byte just
pushed is a newline. -/
theorem read_line_go_ok_newline (fuel : Nat) (evs : List ReadEv) (buf : Char)
    (acc line : List Char) (rest : List ReadEv)
    (h : read_line_go fuel evs buf acc = some (.ok line, rest)) :
    line ≠ [] ∧ line.getLast? = some '\n' := by
  induction fuel generalizing evs buf acc with
  | zero => exact absurd h (by simp [read_line_go])
  | succ fuel ih =>
    cases evs with
    | nil =>
      by_cases hb : buf = '\n'
      · rw [read_line_go, if_pos hb] at h
        obtain ⟨h1, -⟩ := Prod.mk.injEq .. ▸ Option.some.inj h
        obtain rfl : acc ++ [buf] = line := by
          exact congrArg (fun x => match x with | .ok v => v | .error _ => []) h1
        exact ⟨by simp, by rw [hb]; exact getLast?_app_single _ _⟩
      · rw [read_line_go, if_neg hb] at h
        exact ih [] buf (acc ++ [buf]) h
    | cons ev evs2 =>
      cases ev with
      | fail m => simp [read_line_go] at h
      | ok b =>
        by_cases hb : b = '\n'
        · rw [read_line_go, if_pos hb] at h
          obtain ⟨h1, -⟩ := Prod.mk.injEq .. ▸ Option.some.inj h
          obtain rfl : acc ++ [b] = line := by
            exact congrArg (fun x => match x with | .ok v => v | .error _ => []) h1
          exact ⟨by simp, by rw [hb]; exact getLast?_app_single _ _⟩
        · rw [read_line_go, if_neg hb] at h
          exact ih evs2 b (acc ++ [b]) h

/-- At end of file the `read_line` loop never terminates: `read` keeps
succeeding with zero bytes, the stale buffer byte (never a newline on this
path) is pushed again and again, and no amount of fuel makes the loop
return. -/
theorem read_line_go_eof_none (fuel : Nat) (buf : Char) (acc : List Char)
    (h : ¬buf = '\n') : read_line_go fuel [] buf acc = none := by
  induction fuel generalizing acc with
  | zero => rfl
  | succ fuel ih =>
    rw [read_line_go, if_neg h]
    exact ih _

/-- On a line ending with a newline, the parsing step of `evaluation` cannot
hit an out-of-bounds index: the final space-split segment contains the
newline, so it is never the bare token `cp`, and any `cp` segment found has a
successor. -/
theorem evaluation_parse_of_newline (line : List Char) (hne : line ≠ [])
    (hlast : line.getLast? = some '\n') :
    evaluation_parse line ≠ none ∧
    ∀ i, findCpIdx (splitSp line) = some i → i + 1 < (splitSp line).length := by
  obtain ⟨ts, t, hsplit, htne, htlast⟩ :=
    splitBy_last_of_getLast isSp line '\n' (by decide) hne hlast
  have htcp : t ≠ "cp".toList := by
    intro hteq
    rw [hteq] at htlast
    exact (by decide : ¬("cp".toList.getLast? = some '\n')) htlast
  have hbound : ∀ i, findCpIdx (splitSp line) = some i →
      i + 1 < (splitSp line).length := by
    intro i hi
    rw [show splitSp line = ts ++ [t] from hsplit] at hi ⊢
    exact findCpIdx_append_last ts t htcp i hi
  refine ⟨?_, hbound⟩
  cases hfi : findCpIdx (splitSp line) with
  | none => simp [evaluation_parse, hfi]
  | some i =>
    have hlt := hbound i hfi
    cases hg : (splitSp line).get? (i + 1) with
    | none =>
      have := List.get?_eq_none.mp hg
      omega
    | some tok =>
      have hg2 : (splitSp line)[i + 1]? = some tok := by
        rw [← List.get?_eq_getElem?]
        exact hg
      cases hp : parseI32 tok with
      | none => simp [evaluation_parse, hfi, hg2, hp]
      | some n => simp [evaluation_parse, hfi, hg2, hp]

/- ### Claim theorems -/

/-- C7: `set_position(fen)` performs exactly `make_moves_from_position(fen, [])`
— same written bytes, same result — and for every fen the written line is
literally `position fen <fen> moves \n`: the trailing `moves ` clause is
present even though the move list is empty. -/
theorem set_position_eq_empty_moves (fen : List Char) :
    set_position fen = make_moves_from_position fen [] ∧
    set_position fen = "position fen ".toList ++ fen ++ " moves \n".toList := by
  constructor
  · rfl
  · show make_moves_from_position fen [] = _
    rw [make_moves_from_position]
    simp only [show joinSp [] = [] from rfl, List.append_nil, List.append_assoc]
    congr 1

/-- C3 counterexample: when the spawn fails, `Engine::new` panics through
`.expect("Unable to run engine")` — a process abort — and returns no error
value at all, so the claimed `SpawnError` return value never happens. -/
theorem new_spawn_failure_panics :
    Engine.new (.failure "No such file or directory".toList) [] =
      .panicked "Unable to run engine".toList ∧
    (Engine.new (.failure "No such file or directory".toList) []).isErr = false :=
  ⟨rfl, rfl⟩

/-- C3 amended: when the engine executable cannot be launched, construction
panics with the message `Unable to run engine` (as the doc comment of
`Engine::new` states); no session and no error value is returned, and the
error enum has no spawn-related constructor — its only constructors are
`Io`, `UnknownOption` and `NotFound`. -/
theorem new_spawn_failure_aborts (oserr : List Char) (input : List (List Char)) :
    Engine.new (.failure oserr) input = .panicked "Unable to run engine".toList ∧
    (Engine.new (.failure oserr) input).isErr = false ∧
    ∀ e : EngineError,
      (∃ m, e = .Io m) ∨ (∃ n, e = .UnknownOption n) ∨ e = .NotFound := by
  refine ⟨rfl, rfl, ?_⟩
  intro e
  cases e with
  | Io m => exact Or.inl ⟨m, rfl⟩
  | UnknownOption n => exact Or.inr (Or.inl ⟨n, rfl⟩)
  | NotFound => exact Or.inr (Or.inr rfl)

/-- C2: after the engine's stdout reaches end of file (process exit), the
`read_line` loop never returns: `read` keeps succeeding with zero bytes
read, the code never inspects the byte count, pushes the stale buffer byte
(initially NUL, never a newline on this path) again and again, and no
amount of fuel makes the loop terminate — in particular no `Io` error is
ever surfaced.  An `Io` error is produced only when the underlying read
call itself returns an error. -/
theorem read_line_eof_loops_forever :
    (∀ fuel, read_line fuel [] = none) ∧
    (∀ fuel m rest, read_line (fuel + 1) (.fail m :: rest) =
      some (.error (.Io m), rest)) := by
  constructor
  · intro fuel
    exact read_line_go_eof_none fuel (Char.ofNat 0) [] (by decide)
  · intro fuel m rest
    rfl

/-- C4 counterexample: construction consumes more than the single banner
line.  With five lines available, `Engine::new` discards the banner and then
`command("uci")` drains lines up to and including `readyok`: only the fifth
line is left unread, so four lines were read, not one. -/
theorem new_reads_past_banner :
    Engine.new .ok
      ("Stockfish 16 by the Stockfish developers\n".toList ::
        "id name Stockfish\n".toList :: "uciok\n".toList ::
        "readyok\n".toList :: "bestmove e2e4\n".toList :: []) =
      .session
        (Ev.write "uci\n".toList :: Ev.sleepMs 100 ::
          Ev.write "isready\n".toList :: [])
        ("bestmove e2e4\n".toList :: []) := by
  decide

/-- C4 amended: construction reads and discards exactly one banner line and
writes `uci`, but then DOES read further: `command("uci")` sleeps 100 ms,
writes `isready\n` and reads lines up to and including the first line whose
trim is `readyok`, draining the `uci` response through the synchronisation
loop and leaving only the lines after `readyok` unread. -/
theorem new_ok_drains_uci (banner : List Char) (xs : List (List Char))
    (l : List Char) (rest : List (List Char))
    (hxs : ∀ x ∈ xs, trimL x ≠ "readyok".toList)
    (hl : trimL l = "readyok".toList) :
    Engine.new .ok (banner :: (xs ++ l :: rest)) =
      .session
        (Ev.write "uci\n".toList :: Ev.sleepMs 100 ::
          Ev.write "isready\n".toList :: [])
        rest := by
  have hsync := read_left_output_go_append xs l rest [] hxs hl
  simp only [Engine.new, command, read_left_output, hsync]
  rw [show trimL "uci".toList ++ "\n".toList = "uci\n".toList from by decide]

/-- C4 amended, witness: a concrete run with two non-`readyok` lines between
the banner and `readyok`. -/
theorem new_ok_drains_uci_witness :
    (∀ x ∈ ("id name Stockfish\n".toList :: "uciok\n".toList :: []),
      trimL x ≠ "readyok".toList) ∧
    Engine.new .ok ("banner\n".toList ::
      (("id name Stockfish\n".toList :: "uciok\n".toList :: []) ++
        "readyok\n".toList :: ("later\n".toList :: []))) =
      .session
        (Ev.write "uci\n".toList :: Ev.sleepMs 100 ::
          Ev.write "isready\n".toList :: [])
        ("later\n".toList :: []) :=
  ⟨by decide,
    new_ok_drains_uci "banner\n".toList
      ("id name Stockfish\n".toList :: "uciok\n".toList :: [])
      "readyok\n".toList ("later\n".toList :: []) (by decide) (by decide)⟩

/-- C5: `set_option` writes `setoption name <name> value <value>\n`, runs the
synchronisation protocol (whose trace is the single write `isready\n`), and
on a completed exchange fails with `UnknownOption(name)` exactly when the
accumulated text is nonempty after trimming, succeeds exactly when it is
empty, and produces no other outcome. -/
theorem setOption_unknown_iff (name value : List Char)
    (input : List (List Char)) (msg : List Char) (rest : List (List Char))
    (h : read_left_output_go [] input = some (msg, rest)) :
    (setOption name value input).1 =
      Ev.write ("setoption name ".toList ++ name ++ " value ".toList ++
        value ++ "\n".toList) :: Ev.write "isready\n".toList :: [] ∧
    ((setOption name value input).2 =
        some (.error (.UnknownOption name), rest) ↔ trimL msg ≠ []) ∧
    ((setOption name value input).2 = some (.ok (), rest) ↔ trimL msg = []) ∧
    ∀ r rest2, (setOption name value input).2 = some (r, rest2) →
      rest2 = rest ∧ (r = .ok () ∨ r = .error (.UnknownOption name)) := by
  have hset : (setOption name value input).2 =
      some ((if trimL msg = [] then Except.ok ()
        else Except.error (EngineError.UnknownOption name)), rest) := by
    simp [setOption, read_left_output, h]
  refine ⟨?_, ?_, ?_, ?_⟩
  · simp [setOption, read_left_output, h]
  · rw [hset]
    by_cases hm : trimL msg = []
    · simp [hm]
    · simp [hm]
  · rw [hset]
    by_cases hm : trimL msg = []
    · simp [hm]
    · simp [hm]
  · intro r rest2 hr
    rw [hset] at hr
    have h12 := Option.some.inj hr
    have h1 : (if trimL msg = [] then Except.ok ()
        else Except.error (EngineError.UnknownOption name)) = r :=
      congrArg Prod.fst h12
    have h2 : rest = rest2 := congrArg Prod.snd h12
    refine ⟨h2.symm, ?_⟩
    by_cases hm : trimL msg = []
    · rw [if_pos hm] at h1
      exact Or.inl h1.symm
    · rw [if_neg hm] at h1
      exact Or.inr h1.symm

/-- C5 witness: a sync loop that sees `readyok` at once accumulates nothing
and `set_option` succeeds. -/
theorem setOption_unknown_iff_witness :
    read_left_output_go [] ("readyok\n".toList :: []) = some ([], []) ∧
    ((setOption "Skill Level".toList "15".toList ("readyok\n".toList :: [])).2 =
      some (.ok (), []) ↔ trimL [] = []) :=
  ⟨by decide,
    (setOption_unknown_iff "Skill Level".toList "15".toList
      ("readyok\n".toList :: []) [] [] (by decide)).2.2.1⟩

/-- C9: the synchronisation protocol writes the literal `isready\n` and reads
lines until the first whose trimmed content is exactly `readyok`; the result
is all prior lines, trimmed, joined by single newlines in arrival order —
none dropped — and the lines after `readyok` stay unread.  `command(raw)`
writes `<trim(raw)>\n`, sleeps 100 ms, then synchronises and returns the
accumulated text verbatim. -/
theorem command_sync (raw : List Char) (xs : List (List Char)) (l : List Char)
    (rest : List (List Char))
    (hxs : ∀ x ∈ xs, trimL x ≠ "readyok".toList)
    (hl : trimL l = "readyok".toList) :
    read_left_output (xs ++ l :: rest) =
      (Ev.write "isready\n".toList :: [],
        some (List.intercalate "\n".toList (xs.map trimL), rest)) ∧
    command raw (xs ++ l :: rest) =
      (Ev.write (trimL raw ++ "\n".toList) :: Ev.sleepMs 100 ::
        Ev.write "isready\n".toList :: [],
        some (List.intercalate "\n".toList (xs.map trimL), rest)) := by
  have hsync : read_left_output_go [] (xs ++ l :: rest) =
      some (List.intercalate "\n".toList (xs.map trimL), rest) := by
    simpa using read_left_output_go_append xs l rest [] hxs hl
  constructor
  · rw [read_left_output, hsync]
  · rw [command, read_left_output, hsync]

/-- C9 witness: two chatter lines, then `readyok`, then an unread tail. -/
theorem command_sync_witness :
    trimL " readyok \n".toList = "readyok".toList ∧
    command "go depth 10 ".toList
      (("info depth 1\n".toList :: "info depth 2\n".toList :: []) ++
        " readyok \n".toList :: ("tail\n".toList :: [])) =
      (Ev.write (trimL "go depth 10 ".toList ++ "\n".toList) :: Ev.sleepMs 100 ::
        Ev.write "isready\n".toList :: [],
        some (List.intercalate "\n".toList
          (("info depth 1\n".toList :: "info depth 2\n".toList :: []).map trimL),
          ("tail\n".toList :: []))) :=
  ⟨by decide,
    (command_sync "go depth 10 ".toList
      ("info depth 1\n".toList :: "info depth 2\n".toList :: [])
      " readyok \n".toList ("tail\n".toList :: []) (by decide) (by decide)).2⟩

/-- C6: `evaluation` retains the most recent `info`-prefixed line — each new
one overwriting the previous, a left fold over the lines before the first
`bestmove` line — stops reading at that `bestmove` line (the lines after it
never matter), and parses the `cp` value from the retained line; concretely,
with two `info` lines before `bestmove`, the second line's value is
returned, never the first. -/
theorem evaluation_last_info (xs : List (List Char)) (bm : List Char)
    (ys zs : List (List Char))
    (hxs : ∀ x ∈ xs, startsWithL "bestmove".toList x = false)
    (hbm : startsWithL "bestmove".toList bm = true) :
    evaluation_retained [] (xs ++ bm :: ys) =
      some (xs.foldl
        (fun acc l => if startsWithL "info".toList l then l else acc) []) ∧
    evaluation (xs ++ bm :: ys) = evaluation (xs ++ bm :: zs) ∧
    evaluation ("info score cp 11 nodes 1\n".toList :: "info score cp 22 nodes 2\n".toList ::
      "bestmove e2e4 ponder e7e5\n".toList :: []) = .score 22 := by
  refine ⟨evaluation_retained_append [] xs bm ys hxs hbm, ?_, by decide⟩
  simp only [evaluation, evaluation_retained_append [] xs bm ys hxs hbm,
    evaluation_retained_append [] xs bm zs hxs hbm]

/-- C6 witness: a single info line before `bestmove`. -/
theorem evaluation_last_info_witness :
    startsWithL "bestmove".toList "bestmove a1a2\n".toList = true ∧
    evaluation_retained []
      (("info score cp 7\n".toList :: []) ++ "bestmove a1a2\n".toList :: []) =
      some (("info score cp 7\n".toList :: []).foldl
        (fun acc l => if startsWithL "info".toList l then l else acc) []) :=
  ⟨by decide,
    (evaluation_last_info ("info score cp 7\n".toList :: [])
      "bestmove a1a2\n".toList [] [] (by decide) (by decide)).1⟩

/-- C8 counterexample: on the reply line `bestmove  e2e4\n` (two spaces in a
row), the second whitespace-separated field is `e2e4`, but the code takes
index 1 of the single-space split — the empty segment between the two
spaces — so the returned move is the empty string, not `e2e4`. -/
theorem bestmove_second_field_counterexample :
    bestmove_loop ("bestmove  e2e4\n".toList :: []) = .move [] ∧
    wsTokens "bestmove  e2e4\n".toList =
      ("bestmove".toList :: "e2e4".toList :: []) ∧
    ("e2e4".toList : List Char) ≠ [] := by
  exact ⟨by decide, by decide, by decide⟩

/-- C8 amended: `do_move` writes exactly `go movetime <movetime>\n` when
depth is unset and `go movetime <movetime> depth <depth>\n` when it is set;
the read loop skips lines not starting with the string `bestmove` without
affecting the result and, at the first line that does, returns the segment
at index 1 of its single-space split, trimmed (panicking when the line has
no space). -/
theorem bestmove_go_and_field (mt d : Nat) (xs : List (List Char))
    (bm : List Char) (ys : List (List Char))
    (hxs : ∀ x ∈ xs, startsWithL "bestmove".toList x = false)
    (hbm : startsWithL "bestmove".toList bm = true) :
    do_move mt none =
      "go movetime ".toList ++ (toString mt).toList ++ "\n".toList ∧
    do_move mt (some d) = "go movetime ".toList ++ (toString mt).toList ++
      " depth ".toList ++ (toString d).toList ++ "\n".toList ∧
    bestmove_loop (xs ++ bm :: ys) =
      (match (splitSp bm).get? 1 with
       | none => .panicked
       | some f => .move (trimL f)) := by
  refine ⟨rfl, rfl, ?_⟩
  induction xs with
  | nil =>
    simp only [List.nil_append, bestmove_loop, hbm]
    simp [List.get?_eq_getElem?]
  | cons x xs ih =>
    have hx : startsWithL "bestmove".toList x = false := hxs x (by simp)
    simp only [List.cons_append, bestmove_loop, hx, Bool.false_eq_true, if_false]
    exact ih (fun y hy => hxs y (by simp [hy]))

/-- C8 amended, witness: the single-space bestmove line behaves as the field
extraction describes. -/
theorem bestmove_go_and_field_witness :
    startsWithL "bestmove".toList "bestmove e2e4\n".toList = true ∧
    bestmove_loop (([] : List (List Char)) ++ "bestmove e2e4\n".toList :: []) =
      (match (splitSp "bestmove e2e4\n".toList).get? 1 with
       | none => BestmoveResult.panicked
       | some f => BestmoveResult.move (trimL f)) :=
  ⟨by decide,
    (bestmove_go_and_field 100 1 [] "bestmove e2e4\n".toList []
      (by simp) (by decide)).2.2⟩

/-- C1 counterexample: on the retained line `info score cp 1 cp x\n` the
token after the LAST whitespace-separated `cp` token is `x`, which does not
parse as an integer, so the claim predicts `NotFoundError`; the code uses
the FIRST `cp` token instead and returns the integer 1 that follows it. -/
theorem evaluation_first_cp_counterexample :
    evaluation_parse "info score cp 1 cp x\n".toList = some (.ok 1) ∧
    wsTokens "info score cp 1 cp x\n".toList =
      ("info".toList :: "score".toList :: "cp".toList :: "1".toList ::
        "cp".toList :: "x".toList :: []) ∧
    parseI32 "x".toList = none ∧
    evaluation ("info score cp 1 cp x\n".toList ::
      "bestmove a1a2\n".toList :: []) = .score 1 :=
  ⟨rfl, by decide, by decide, by decide⟩

/-- C1 amended: for every retained info line, the code splits on single
space characters and uses the FIRST segment equal to `cp` (the segment at
the found index is `cp` and no earlier one is): the result is
`NotFoundError` exactly when no segment equals `cp`, or when the segment
immediately after the first `cp` exists and fails to parse as an i32; when
the first `cp` is the final segment the unchecked index panics; otherwise
the integer after the first `cp` is returned. -/
theorem evaluation_first_cp (line : List Char) :
    ((∀ t ∈ splitSp line, t ≠ "cp".toList) →
      evaluation_parse line = some (.error .NotFound)) ∧
    (∀ i, findCpIdx (splitSp line) = some i →
      (splitSp line).get? i = some "cp".toList ∧
      ∀ j, j < i → (splitSp line).get? j ≠ some "cp".toList) ∧
    (∀ i tok, findCpIdx (splitSp line) = some i →
      (splitSp line).get? (i + 1) = some tok →
      (parseI32 tok = none → evaluation_parse line = some (.error .NotFound)) ∧
      (∀ n, parseI32 tok = some n → evaluation_parse line = some (.ok n))) ∧
    (∀ i, findCpIdx (splitSp line) = some i →
      (splitSp line).get? (i + 1) = none → evaluation_parse line = none) ∧
    (evaluation_parse line = some (.error .NotFound) →
      (∀ t ∈ splitSp line, t ≠ "cp".toList) ∨
      (∃ i tok, findCpIdx (splitSp line) = some i ∧
        (splitSp line).get? (i + 1) = some tok ∧ parseI32 tok = none)) := by
  refine ⟨?_, ?_, ?_, ?_, ?_⟩
  · intro h
    simp [evaluation_parse, (findCpIdx_none_iff (splitSp line)).mpr h]
  · intro i hi
    exact findCpIdx_some_first (splitSp line) i hi
  · intro i tok hi hg
    have hg2 : (splitSp line)[i + 1]? = some tok := by
      rw [← List.get?_eq_getElem?]
      exact hg
    constructor
    · intro hp
      simp [evaluation_parse, hi, hg2, hp]
    · intro n hp
      simp [evaluation_parse, hi, hg2, hp]
  · intro i hi hg
    have hg2 : (splitSp line)[i + 1]? = none := by
      rw [← List.get?_eq_getElem?]
      exact hg
    simp [evaluation_parse, hi, hg2]
  · intro h
    cases hfi : findCpIdx (splitSp line) with
    | none => exact Or.inl ((findCpIdx_none_iff (splitSp line)).mp hfi)
    | some i =>
      cases hg : (splitSp line).get? (i + 1) with
      | none =>
        have hg2 : (splitSp line)[i + 1]? = none := by
          rw [← List.get?_eq_getElem?]
          exact hg
        rw [show evaluation_parse line = none from by
          simp [evaluation_parse, hfi, hg2]] at h
        exact absurd h (by simp)
      | some tok =>
        have hg2 : (splitSp line)[i + 1]? = some tok := by
          rw [← List.get?_eq_getElem?]
          exact hg
        cases hp : parseI32 tok with
        | none => exact Or.inr ⟨i, tok, rfl, hg, hp⟩
        | some n =>
          rw [show evaluation_parse line = some (.ok n) from by
            simp [evaluation_parse, hfi, hg2, hp]] at h
          exact absurd (Option.some.inj h) (by simp)

/-- C1 amended, witness: on `info score cp 13 x\n` the first `cp` segment is
at index 2, its successor `13` parses, and the call returns 13. -/
theorem evaluation_first_cp_witness :
    findCpIdx (splitSp "info score cp 13 x\n".toList) = some 2 ∧
    (splitSp "info score cp 13 x\n".toList).get? 3 = some "13".toList ∧
    parseI32 "13".toList = some 13 ∧
    evaluation_parse "info score cp 13 x\n".toList = some (.ok 13) :=
  ⟨by decide, by decide, by decide,
    ((evaluation_first_cp "info score cp 13 x\n".toList).2.2.1 2 "13".toList
      (by decide) (by decide)).2 13 (by decide)⟩

/-- C10: the index `cp_index = i + 1` of `evaluation` is in bounds whenever
the retained info line was produced by `read_line`: every line `read_line`
returns is nonempty and ends with a newline, the final space-split segment
therefore contains that newline and is never the bare token `cp`, so any
found `cp` segment has a successor and the parse step never panics. -/
theorem evaluation_index_in_bounds (fuel : Nat) (evs rest : List ReadEv)
    (line : List Char)
    (h : read_line fuel evs = some (.ok line, rest)) :
    line ≠ [] ∧ line.getLast? = some '\n' ∧
    (∀ i, findCpIdx (splitSp line) = some i → i + 1 < (splitSp line).length) ∧
    evaluation_parse line ≠ none := by
  obtain ⟨h1, h2⟩ :=
    read_line_go_ok_newline fuel evs (Char.ofNat 0) [] line rest h
  obtain ⟨h3, h4⟩ := evaluation_parse_of_newline line h1 h2
  exact ⟨h1, h2, h4, h3⟩

/-- C10 witness: a concrete info line delivered byte by byte through
`read_line`. -/
theorem evaluation_index_in_bounds_witness :
    read_line 32 (("info cp 5 x\n".toList).map ReadEv.ok) =
      some (.ok "info cp 5 x\n".toList, []) ∧
    evaluation_parse "info cp 5 x\n".toList ≠ none :=
  ⟨rfl,
    (evaluation_index_in_bounds 32 (("info cp 5 x\n".toList).map ReadEv.ok) []
      "info cp 5 x\n".toList rfl).2.2.2⟩

end Uci
